import Mathlib

/-!
Verification development for the liveness-driven memory allocator and the
graph-splitting controller of the ONNC repository
(src/lib/Analysis/MemoryAllocation.cpp).

The C++ code is shallowly embedded: the allocation entry list held in the
pass object becomes an explicit list threaded through the functions, machine
integers become Nat (all arithmetic here is non-negative and far from
overflow), and the unbounded planner loop becomes a fuel-indexed runner.
-/

/-- Live interval of one value, as used by MemoryAllocation.cpp through
getValue, getStart and getEnd.  The field stop stands for the C++ end
(a Lean keyword).  Values are identified by a Nat. -/
structure LiveInterval where
  value : Nat
  start : Nat
  stop : Nat
deriving DecidableEq

/-- Modelled from the spec: LiveInterval::intersect is declared in
LivenessAnalysis.h, which is not part of the examined sources.  The spec
states that two intervals intersect iff their closed ranges [start, end]
overlap, endpoints inclusive. -/
def LiveInterval.intersect (a b : LiveInterval) : Bool :=
  decide (a.start ≤ b.stop) && decide (b.start ≤ a.stop)

/-- MemRegion from MemoryAllocation.cpp: a contiguous address range given by
its start address and its size. -/
structure MemRegion where
  start : Nat
  size : Nat
deriving DecidableEq

/-- MemAllocEntry as used by MemoryAllocation.cpp (fields startAddr, size,
liveIntrvl; the struct itself is declared in the pass header). -/
structure MemAllocEntry where
  startAddr : Nat
  size : Nat
  liveIntrvl : LiveInterval
deriving DecidableEq

/-- ValMemSizeMap: mapping from a value to its required byte size.  The C++
unordered map with unique keys is embedded as an association list consulted
with List.lookup. -/
abbrev ValMemSizeMap : Type := List (Nat × Nat)

/-- HasConflict from MemoryAllocation.cpp lines 67-74: half-open overlap
test of [pStartA, pStartA+pSizeA) against [pStartB, pStartB+pSizeB). -/
def HasConflict (pStartA pSizeA pStartB pSizeB : Nat) : Bool :=
  !(decide (pStartA + pSizeA ≤ pStartB) || decide (pStartB + pSizeB ≤ pStartA))

/-- Ordering of memory regions by ascending start address, the comparator
passed to std::sort in GetUsedMemRegions. -/
def regionLE (a b : MemRegion) : Prop := a.start ≤ b.start

instance : DecidableRel regionLE := fun a b => Nat.decLe a.start b.start

instance : IsTotal MemRegion regionLE := ⟨fun a b => Nat.le_total a.start b.start⟩

instance : IsTrans MemRegion regionLE := ⟨fun _ _ _ h1 h2 => Nat.le_trans h1 h2⟩

/-- GetUsedMemRegions from MemoryAllocation.cpp lines 46-65: the regions of
the already-allocated entries whose live interval intersects the given one,
sorted by ascending start address.  std::sort with the strict comparator is
embedded as a stable insertion sort, a valid refinement (the C++ order among
equal start addresses is unspecified). -/
def GetUsedMemRegions (pAllocs : List MemAllocEntry) (pIntrvl : LiveInterval) :
    List MemRegion :=
  List.insertionSort regionLE
    ((pAllocs.filter fun e => e.liveIntrvl.intersect pIntrvl).map
      fun e => { start := e.startAddr, size := e.size })

/-- Placement scan of MemoryAllocation.cpp lines 97-102: walk the sorted
conflict list; while the current region overlaps the candidate, advance the
candidate to that region end; stop at the first region that does not
overlap (the C++ break), or when the list is exhausted. -/
def scanConflicts (pRequired : Nat) (pStartAddr : Nat) : List MemRegion → Nat
  | [] => pStartAddr
  | reg :: rest =>
    if HasConflict reg.start reg.size pStartAddr pRequired then
      scanConflicts pRequired (reg.start + reg.size) rest
    else
      pStartAddr

/-- One iteration of the allocation loop of allocByLiveness (lines 87-108):
skip the interval if its value is absent from the size map, otherwise place
a new entry at the address found by the conflict scan and update the
running peak. -/
def allocStep (pValMemSizeMap : ValMemSizeMap)
    (acc : List MemAllocEntry × Nat) (li : LiveInterval) :
    List MemAllocEntry × Nat :=
  match List.lookup li.value pValMemSizeMap with
  | none => acc
  | some required =>
    let startAddr := scanConflicts required 0 (GetUsedMemRegions acc.1 li)
    (acc.1 ++ [{ startAddr := startAddr, size := required, liveIntrvl := li }],
     Nat.max acc.2 (startAddr + required))

/-- MemoryAllocation::clear (lines 201-207): discard every allocation
entry. -/
def clearAllocs (_pMemAllocList : List MemAllocEntry) : List MemAllocEntry := []

/-- MemoryAllocation::allocByLiveness (lines 76-110).  The member list
m_MemAllocList is passed explicitly; the function first clears it, then
processes the live intervals in the order supplied, and returns the peak
size together with the new entry list. -/
def allocByLiveness (pMemAllocList : List MemAllocEntry)
    (pLivesInfo : List LiveInterval) (pValMemSizeMap : ValMemSizeMap) :
    Nat × List MemAllocEntry :=
  let cleared := clearAllocs pMemAllocList
  let result := pLivesInfo.foldl (allocStep pValMemSizeMap) (cleared, 0)
  (result.2, result.1)

/-- Modelled from the spec: the sub-graph services consumed by
runOnModule — SplitGraph::getMemUsage, shrinkSize, resetToOrigSize,
SplitGraphManager::splitNewSubGraph and the liveness provider — are declared
in SplitNode.h and LivenessAnalysis.h, which are not part of the examined
sources.  splitNewSubGraph returns the updated original sub-graph together
with the split-off one, or none when no further split is possible. -/
structure SubGraphModel (σ : Type) where
  getMemUsage : σ → ValMemSizeMap
  liveIntervals : σ → List LiveInterval
  shrinkSize : σ → σ
  resetToOrigSize : σ → σ
  splitNewSubGraph : σ → Option (σ × σ)

/-- Allocation attempt for the current state of a sub-graph (lines 141-150):
fresh memory-usage map, fresh allocation. -/
def plannerAlloc {σ : Type} (M : SubGraphModel σ) (s : σ) :
    Nat × List MemAllocEntry :=
  allocByLiveness [] (M.liveIntervals s) (M.getMemUsage s)

/-- Peak size (minSize in the C++) of the allocation attempt for a
sub-graph state. -/
def plannerPeak {σ : Type} (M : SubGraphModel σ) (s : σ) : Nat :=
  (plannerAlloc M s).1

/-- Outcome of one iteration of the planner loop body (lines 140-175). -/
inductive StepResult (σ : Type) where
  | accepted (s : σ) (peak : Nat) (entries : List MemAllocEntry)
  | shrunk (s : σ) (newPrev : Nat)
  | splitOk (orig : σ) (fresh : σ)
  | abandoned (s : σ) (entries : List MemAllocEntry)
deriving DecidableEq

/-- One iteration of the inner while loop of runOnModule (lines 140-175).
The float threshold test (float)minSize / prevMinSize > 0.9f is embedded as
the exact rational comparison 9 * prevMinSize < 10 * minSize. -/
def plannerStep {σ : Type} (M : SubGraphModel σ) (budget : Nat) (s : σ)
    (prevMinSize : Nat) : StepResult σ :=
  if (plannerAlloc M s).1 < budget then
    StepResult.accepted s (plannerAlloc M s).1 (plannerAlloc M s).2
  else if prevMinSize ≠ 0 ∧ 9 * prevMinSize < 10 * (plannerAlloc M s).1 then
    match M.splitNewSubGraph (M.resetToOrigSize s) with
    | some (o, n) => StepResult.splitOk o n
    | none => StepResult.abandoned (M.resetToOrigSize s) (plannerAlloc M s).2
  else
    StepResult.shrunk (M.shrinkSize s) (plannerAlloc M s).1

/-- Tests whether a planner step took the split-required branch of the
loop (line 156), regardless of whether the split then succeeded. -/
def isSplitSignal {σ : Type} : StepResult σ → Bool
  | StepResult.splitOk _ _ => true
  | StepResult.abandoned _ _ => true
  | _ => false

/-- Terminal state of the inner planner loop for one sub-graph. -/
inductive PlanEnd (σ : Type) where
  | accepted (s : σ) (peak : Nat)
  | abandoned (s : σ)
deriving DecidableEq

/-- Fuel-indexed runner for the inner while loop of runOnModule
(lines 140-175).  A successful split pushes the new sub-graph (LIFO) and
continues with the original sub-graph and prevMinSize reset to 0; a shrink
continues with prevMinSize recorded as the last peak.  none means the fuel
ran out, never that the loop failed. -/
def plannerRun {σ : Type} (M : SubGraphModel σ) (budget : Nat) :
    Nat → σ → Nat → List σ → Option (PlanEnd σ × List σ × List MemAllocEntry)
  | 0, _, _, _ => none
  | fuel + 1, s, prevMinSize, pushed =>
    match plannerStep M budget s prevMinSize with
    | StepResult.accepted s2 pk es => some (PlanEnd.accepted s2 pk, pushed, es)
    | StepResult.shrunk s2 p2 => plannerRun M budget fuel s2 p2 pushed
    | StepResult.splitOk o n => plannerRun M budget fuel o 0 (n :: pushed)
    | StepResult.abandoned s2 es => some (PlanEnd.abandoned s2, pushed, es)

/-- Outer worklist loop of runOnModule (lines 131-177): pop a sub-graph,
drive the planner on it, then continue with the sub-graphs pushed by its
splits ahead of the rest (the C++ vector used as a stack).  The entry list
of the pass always holds the result of the most recent allocation
attempt. -/
def runWorklist {σ : Type} (M : SubGraphModel σ) (budget : Nat) :
    Nat → List σ → List MemAllocEntry → Option (List MemAllocEntry)
  | _, [], entries => some entries
  | 0, _ :: _, _ => none
  | fuel + 1, s :: rest, _ =>
    match plannerRun M budget (fuel + 1) s 0 [] with
    | none => none
    | some (_, pushed, entries2) =>
      runWorklist M budget fuel (pushed ++ rest) entries2

/-- Pass return statuses used by MemoryAllocation::runOnModule. -/
inductive PassReturn where
  | kModuleNoChanged
  | kPassFailure
deriving DecidableEq

/-- MemoryAllocation::runOnModule (lines 112-180).  A missing backend
(null m_DLATB) fails immediately, before the scheduler, the liveness
analysis or any allocation runs, leaving the entry list untouched.
Otherwise the pass clears its entries, processes the worklist and returns
kModuleNoChanged.  none means the fuel ran out. -/
def runOnModule {σ : Type} (backendMemSize : Option Nat) (M : SubGraphModel σ)
    (seeds : List σ) (pMemAllocList : List MemAllocEntry) (fuel : Nat) :
    Option (PassReturn × List MemAllocEntry) :=
  match backendMemSize with
  | none => some (PassReturn.kPassFailure, pMemAllocList)
  | some localMemSize =>
    (runWorklist M localMemSize fuel seeds []).map
      (fun entries => (PassReturn.kModuleNoChanged, entries))

/-- Relation asserted by the no-overlap invariant for one ordered pair of
allocation entries: if the live intervals intersect, the address ranges do
not overlap. -/
def entryGoodPair (e1 e2 : MemAllocEntry) : Prop :=
  e1.liveIntrvl.intersect e2.liveIntrvl = true →
    HasConflict e1.startAddr e1.size e2.startAddr e2.size = false

instance (e1 e2 : MemAllocEntry) : Decidable (entryGoodPair e1 e2) := by
  unfold entryGoodPair
  infer_instance

/-- Predicate stating that a whole scan prefix was traversed: every region
of the prefix overlapped the running candidate, the candidate advanced to
each region end in turn, and the scan value at the end of the prefix is the
given result. -/
def scanSteps (sz : Nat) : Nat → List MemRegion → Nat → Bool
  | cand, [], r => cand == r
  | cand, reg :: rest, r =>
    HasConflict reg.start reg.size cand sz && scanSteps sz (reg.start + reg.size) rest r

/-- Concrete live-interval list exhibiting the early-break flaw of the
conflict scan.  The intervals are not sorted by start. -/
def exLives : List LiveInterval :=
  [⟨1, 10, 11⟩, ⟨2, 35, 40⟩, ⟨3, 20, 40⟩, ⟨4, 0, 7⟩, ⟨5, 0, 9⟩, ⟨6, 8, 31⟩]

/-- Concrete size map for the counterexample run. -/
def exMap : ValMemSizeMap :=
  [(1, 100), (2, 10), (3, 40), (4, 20), (5, 1000), (6, 5)]

/-- Trivial live interval used by the concrete sub-graph models below. -/
def singleIntrvl : LiveInterval := { value := 0, start := 0, stop := 0 }

/-- Concrete sub-graph model over Nat states whose allocation peak equals
the state itself: one value of size s, never splittable. -/
def peakModel : SubGraphModel Nat where
  getMemUsage := fun s => [(0, s)]
  liveIntervals := fun _ => [singleIntrvl]
  shrinkSize := fun s => s
  resetToOrigSize := fun s => s
  splitNewSubGraph := fun _ => none

/-- Concrete sub-graph model whose reset operation moves every state to
1000 and whose split always succeeds, exposing the reset-before-split
ordering. -/
def resetModel : SubGraphModel Nat where
  getMemUsage := fun _ => [(0, 7)]
  liveIntervals := fun _ => [singleIntrvl]
  shrinkSize := fun s => s
  resetToOrigSize := fun _ => 1000
  splitNewSubGraph := fun x => some (x, x + 1)

/-- Concrete sub-graph model with constant positive peak 1 and no possible
split, used to witness termination of the planner loop. -/
def c9Model : SubGraphModel Nat where
  getMemUsage := fun _ => [(0, 1)]
  liveIntervals := fun _ => [singleIntrvl]
  shrinkSize := fun s => s
  resetToOrigSize := fun s => s
  splitNewSubGraph := fun _ => none

/-- Characterization of a positive overlap test. -/
theorem hasConflict_true_iff (a sa b sb : Nat) :
    HasConflict a sa b sb = true ↔ b < a + sa ∧ a < b + sb := by
  unfold HasConflict
  by_cases h1 : a + sa ≤ b <;> by_cases h2 : b + sb ≤ a <;> simp [h1, h2]
  omega

/-- Characterization of a negative overlap test. -/
theorem hasConflict_false_iff (a sa b sb : Nat) :
    HasConflict a sa b sb = false ↔ a + sa ≤ b ∨ b + sb ≤ a := by
  unfold HasConflict
  by_cases h1 : a + sa ≤ b <;> by_cases h2 : b + sb ≤ a <;> simp [h1, h2]

/-- Symmetry of the overlap test. -/
theorem hasConflict_comm (a sa b sb : Nat) :
    HasConflict a sa b sb = HasConflict b sb a sa := by
  unfold HasConflict
  rw [Bool.or_comm]

/-- Characterization of interval intersection. -/
theorem intersect_true_iff (a b : LiveInterval) :
    a.intersect b = true ↔ a.start ≤ b.stop ∧ b.start ≤ a.stop := by
  simp [LiveInterval.intersect]

/-- The scan never moves the candidate backwards. -/
theorem scanConflicts_le (sz : Nat) :
    ∀ (regions : List MemRegion) (cand : Nat), cand ≤ scanConflicts sz cand regions := by
  intro regions
  induction regions with
  | nil => intro cand; exact Nat.le_refl cand
  | cons reg rest ih =>
    intro cand
    by_cases h : HasConflict reg.start reg.size cand sz = true
    · have hlt : cand < reg.start + reg.size := ((hasConflict_true_iff _ _ _ _).mp h).1
      calc cand ≤ reg.start + reg.size := Nat.le_of_lt hlt
        _ ≤ scanConflicts sz (reg.start + reg.size) rest := ih _
        _ = scanConflicts sz cand (reg :: rest) := by
              rw [scanConflicts, if_pos h]
    · rw [scanConflicts, if_neg h]

/-- Correctness of the placement scan when the conflict list is sorted by
start address, pairwise non-overlapping and made of positive-size regions:
the accepted candidate overlaps none of the listed regions.  The initial
candidate must not lie beyond any region start (the allocator starts the
scan at 0, so this holds trivially). -/
theorem scanConflicts_no_overlap (sz : Nat) :
    ∀ (regions : List MemRegion) (cand : Nat),
      List.Pairwise regionLE regions →
      List.Pairwise
        (fun a b => HasConflict a.start a.size b.start b.size = false) regions →
      (∀ r ∈ regions, 0 < r.size) →
      (∀ r ∈ regions, cand ≤ r.start) →
      ∀ r ∈ regions,
        HasConflict r.start r.size (scanConflicts sz cand regions) sz = false := by
  intro regions
  induction regions with
  | nil => intro cand _ _ _ _ r hr; cases hr
  | cons reg rest ih =>
    intro cand hsort hdisj hpos hcand r hr
    have hsort1 : ∀ x ∈ rest, regionLE reg x := (List.pairwise_cons.mp hsort).1
    have hsort2 : List.Pairwise regionLE rest := (List.pairwise_cons.mp hsort).2
    have hdisj1 : ∀ x ∈ rest,
        HasConflict reg.start reg.size x.start x.size = false :=
      (List.pairwise_cons.mp hdisj).1
    have hdisj2 : List.Pairwise
        (fun a b => HasConflict a.start a.size b.start b.size = false) rest :=
      (List.pairwise_cons.mp hdisj).2
    by_cases h : HasConflict reg.start reg.size cand sz = true
    · rw [scanConflicts, if_pos h]
      -- every subsequent region starts at or after the advanced candidate
      have hafter : ∀ x ∈ rest, reg.start + reg.size ≤ x.start := by
        intro x hx
        rcases (hasConflict_false_iff _ _ _ _).mp (hdisj1 x hx) with hle | hle
        · exact hle
        · -- the region x would end before reg starts, forcing size 0
          have h1 : reg.start ≤ x.start := hsort1 x hx
          have h2 : 0 < x.size := hpos x (List.mem_cons_of_mem _ hx)
          omega
      rcases List.mem_cons.mp hr with hh | hmem
      · -- the advanced candidate, and hence the result, is past reg
        subst hh
        have hle : r.start + r.size ≤ scanConflicts sz (r.start + r.size) rest :=
          scanConflicts_le sz rest _
        exact (hasConflict_false_iff _ _ _ _).mpr (Or.inl hle)
      · exact ih (reg.start + reg.size) hsort2 hdisj2
          (fun x hx => hpos x (List.mem_cons_of_mem _ hx)) hafter r hmem
    · rw [scanConflicts, if_neg h]
      have hfalse : HasConflict reg.start reg.size cand sz = false := by
        simpa using h
      rcases List.mem_cons.mp hr with hh | hmem
      · subst hh; exact hfalse
      · -- the head does not overlap the candidate; since the candidate is
        -- not past the head start, the candidate region ends before the
        -- head, hence before every later region as well
        have hcr : cand ≤ reg.start := hcand reg (List.mem_cons_self _ _)
        have hrp : 0 < reg.size := hpos reg (List.mem_cons_self _ _)
        have hstop : cand + sz ≤ reg.start := by
          rcases (hasConflict_false_iff _ _ _ _).mp hfalse with hle | hle
          · omega
          · exact hle
        have hxs : reg.start ≤ r.start := hsort1 r hmem
        exact (hasConflict_false_iff _ _ _ _).mpr (Or.inr (by omega))

/-- Decomposition of one scan: the traversed prefix consists of regions each
overlapping the running candidate (scanSteps), and the scan stops at the
first region that does not overlap, or at the end of the list. -/
theorem scanConflicts_stops_at_first_clear (sz : Nat) :
    ∀ (regions : List MemRegion) (cand : Nat),
      ∃ pre post, regions = pre ++ post ∧
        scanSteps sz cand pre (scanConflicts sz cand regions) = true ∧
        (post = [] ∨ ∃ reg rest, post = reg :: rest ∧
          HasConflict reg.start reg.size (scanConflicts sz cand regions) sz = false) := by
  intro regions
  induction regions with
  | nil =>
    intro cand
    exact ⟨[], [], rfl, by simp [scanSteps, scanConflicts], Or.inl rfl⟩
  | cons reg rest ih =>
    intro cand
    by_cases h : HasConflict reg.start reg.size cand sz = true
    · obtain ⟨pre, post, hsplit, hsteps, hstop⟩ := ih (reg.start + reg.size)
      refine ⟨reg :: pre, post, by rw [hsplit]; rfl, ?_, ?_⟩
      · rw [scanConflicts, if_pos h]
        rw [scanSteps, h]
        simpa using hsteps
      · rw [scanConflicts, if_pos h]
        exact hstop
    · have hfalse : HasConflict reg.start reg.size cand sz = false :=
        Bool.not_eq_true _ ▸ Bool.of_not_eq_true h
      refine ⟨[], reg :: rest, rfl, ?_, Or.inr ⟨reg, rest, rfl, ?_⟩⟩
      · rw [scanConflicts, if_neg h]
        simp [scanSteps]
      · rw [scanConflicts, if_neg h]
        exact hfalse

/-- Counterexample to the claim that the scan only stops once no remaining
conflicting region overlaps the candidate: on the start-sorted conflict
list (0,100), (10,40), (20,1000) with required size 5 the scan accepts
address 100 after breaking at region (10,40), yet the remaining region
(20,1000) overlaps [100,105). -/
theorem scanConflicts_remaining_overlap_counterexample :
    scanConflicts 5 0
        [{ start := 0, size := 100 }, { start := 10, size := 40 },
         { start := 20, size := 1000 }] = 100 ∧
      ({ start := 20, size := 1000 } : MemRegion) ∈
        [{ start := 0, size := 100 }, { start := 10, size := 40 },
         ({ start := 20, size := 1000 } : MemRegion)] ∧
      HasConflict 20 1000 100 5 = true := by
  decide

/-- The conflict list built by GetUsedMemRegions is sorted by ascending
start address. -/
theorem getUsed_sorted (es : List MemAllocEntry) (li : LiveInterval) :
    List.Pairwise regionLE (GetUsedMemRegions es li) :=
  List.sorted_insertionSort regionLE _

/-- The region of every already-allocated entry whose interval intersects
the current one appears in the conflict list. -/
theorem getUsed_mem {es : List MemAllocEntry} {li : LiveInterval}
    {e : MemAllocEntry} (he : e ∈ es)
    (hi : e.liveIntrvl.intersect li = true) :
    ({ start := e.startAddr, size := e.size } : MemRegion) ∈ GetUsedMemRegions es li := by
  unfold GetUsedMemRegions
  rw [List.mem_insertionSort]
  exact List.mem_map_of_mem _ (List.mem_filter.mpr ⟨he, hi⟩)

/-- The conflict list only contains regions of entries of the allocation
list, so positivity of entry sizes transfers to it. -/
theorem getUsed_pos {es : List MemAllocEntry} {li : LiveInterval}
    (hpos : ∀ e ∈ es, 0 < e.size) :
    ∀ r ∈ GetUsedMemRegions es li, 0 < r.size := by
  intro r hr
  unfold GetUsedMemRegions at hr
  rw [List.mem_insertionSort] at hr
  obtain ⟨e, he, hfe⟩ := List.mem_map.mp hr
  have hees : e ∈ es := (List.mem_filter.mp he).1
  rw [← hfe]
  exact hpos e hees

/-- When every already-allocated entry has an interval starting no later
than the current interval, any two entries conflicting with the current
interval intersect each other, so by the no-overlap invariant their regions
are pairwise disjoint, and so is the conflict list. -/
theorem getUsed_pairwise_disjoint {es : List MemAllocEntry} {li : LiveInterval}
    (hgood : List.Pairwise entryGoodPair es)
    (hbefore : ∀ e ∈ es, e.liveIntrvl.start ≤ li.start) :
    List.Pairwise
      (fun a b => HasConflict a.start a.size b.start b.size = false)
      (GetUsedMemRegions es li) := by
  unfold GetUsedMemRegions
  apply List.Pairwise.perm ?base (List.perm_insertionSort regionLE _).symm ?symm
  case symm =>
    intro x y hxy
    rw [hasConflict_comm]
    exact hxy
  case base =>
    rw [List.pairwise_map]
    have hfiltered := hgood.filter (fun e => e.liveIntrvl.intersect li)
    refine hfiltered.imp_of_mem ?_
    intro a b ha hb hR
    have hain := List.mem_filter.mp ha
    have hbin := List.mem_filter.mp hb
    have hia := (intersect_true_iff _ _).mp hain.2
    have hib := (intersect_true_iff _ _).mp hbin.2
    have hsa : a.liveIntrvl.start ≤ li.start := hbefore a hain.1
    have hsb : b.liveIntrvl.start ≤ li.start := hbefore b hbin.1
    exact hR ((intersect_true_iff _ _).mpr
      ⟨Nat.le_trans hsa hib.2, Nat.le_trans hsb hia.2⟩)

/-- Invariant preservation through the allocation fold: starting from an
entry list that satisfies the no-overlap invariant, whose intervals all
start no later than every remaining interval, and whose sizes are positive,
processing a start-sorted interval list keeps the invariant. -/
theorem allocFold_invariant (vmap : ValMemSizeMap)
    (hmap : ∀ v n, List.lookup v vmap = some n → 0 < n) :
    ∀ (lives : List LiveInterval) (es : List MemAllocEntry) (m : Nat),
      List.Pairwise (fun a b => a.start ≤ b.start) lives →
      List.Pairwise entryGoodPair es →
      (∀ e ∈ es, ∀ li ∈ lives, e.liveIntrvl.start ≤ li.start) →
      (∀ e ∈ es, 0 < e.size) →
      List.Pairwise entryGoodPair (lives.foldl (allocStep vmap) (es, m)).1 := by
  intro lives
  induction lives with
  | nil => intro es m _ hgood _ _; exact hgood
  | cons li rest ih =>
    intro es m hsorted hgood hbefore hpos
    have hsorted1 : ∀ x ∈ rest, li.start ≤ x.start := (List.pairwise_cons.mp hsorted).1
    have hsorted2 : List.Pairwise (fun a b => a.start ≤ b.start) rest :=
      (List.pairwise_cons.mp hsorted).2
    rw [List.foldl_cons]
    cases hlk : List.lookup li.value vmap with
    | none =>
      have hstep : allocStep vmap (es, m) li = (es, m) := by
        unfold allocStep
        rw [hlk]
      rw [hstep]
      exact ih es m hsorted2 hgood
        (fun e he x hx => hbefore e he x (List.mem_cons_of_mem _ hx)) hpos
    | some required =>
      have hreq : 0 < required := hmap li.value required hlk
      have hstep : allocStep vmap (es, m) li =
          (es ++ [{ startAddr := scanConflicts required 0 (GetUsedMemRegions es li),
                    size := required, liveIntrvl := li }],
           Nat.max m (scanConflicts required 0 (GetUsedMemRegions es li) + required)) := by
        unfold allocStep
        rw [hlk]
      rw [hstep]
      set sa := scanConflicts required 0 (GetUsedMemRegions es li) with hsa
      set newE : MemAllocEntry :=
        { startAddr := sa, size := required, liveIntrvl := li } with hnewE
      have hbefore1 : ∀ e ∈ es, e.liveIntrvl.start ≤ li.start :=
        fun e he => hbefore e he li (List.mem_cons_self _ _)
      -- the fresh entry does not overlap any conflicting old entry
      have hcross : ∀ e ∈ es, entryGoodPair e newE := by
        intro e he hi
        have hmemreg :
            ({ start := e.startAddr, size := e.size } : MemRegion) ∈
              GetUsedMemRegions es li := getUsed_mem he hi
        have := scanConflicts_no_overlap required (GetUsedMemRegions es li) 0
          (getUsed_sorted es li)
          (getUsed_pairwise_disjoint hgood hbefore1)
          (getUsed_pos hpos)
          (fun r _ => Nat.zero_le r.start)
          _ hmemreg
        exact this
      have hgood2 : List.Pairwise entryGoodPair (es ++ [newE]) := by
        rw [List.pairwise_append]
        exact ⟨hgood, List.pairwise_singleton _ _, fun a ha b hb => by
          rw [List.mem_singleton.mp hb]
          exact hcross a ha⟩
      have hbefore2 : ∀ e ∈ es ++ [newE], ∀ x ∈ rest, e.liveIntrvl.start ≤ x.start := by
        intro e he x hx
        rcases List.mem_append.mp he with hl | hr
        · exact hbefore e hl x (List.mem_cons_of_mem _ hx)
        · rw [List.mem_singleton.mp hr]
          exact hsorted1 x hx
      have hpos2 : ∀ e ∈ es ++ [newE], 0 < e.size := by
        intro e he
        rcases List.mem_append.mp he with hl | hr
        · exact hpos e hl
        · rw [List.mem_singleton.mp hr]
          exact hreq
      exact ih _ _ hsorted2 hgood2 hbefore2 hpos2

/-- Positivity of every mapped size implies positivity of every successful
lookup. -/
theorem lookup_pos_of_forall {vmap : ValMemSizeMap}
    (hp : ∀ p ∈ vmap, 0 < p.2) :
    ∀ v n, List.lookup v vmap = some n → 0 < n := by
  induction vmap with
  | nil => intro v n h; cases h
  | cons q rest ih =>
    intro v n h
    rw [List.lookup] at h
    split at h
    · cases h
      exact hp q (List.mem_cons_self _ _)
    · exact ih (fun p hpmem => hp p (List.mem_cons_of_mem _ hpmem)) v n h

/-- Amended no-overlap invariant: for a live-interval list sorted by
ascending start (the order a schedule-driven liveness provider supplies)
and a size map with positive sizes, every pair of entries produced by one
run of allocByLiveness whose live intervals intersect occupies
non-overlapping half-open address ranges.  For an arbitrary interval order
this fails, see the counterexample. -/
theorem allocByLiveness_no_overlap_of_sorted
    (prior : List MemAllocEntry) (lives : List LiveInterval)
    (vmap : ValMemSizeMap)
    (hsorted : List.Pairwise (fun a b => a.start ≤ b.start) lives)
    (hmap : ∀ v n, List.lookup v vmap = some n → 0 < n) :
    List.Pairwise entryGoodPair (allocByLiveness prior lives vmap).2 := by
  unfold allocByLiveness clearAllocs
  exact allocFold_invariant vmap hmap lives [] 0 hsorted
    (List.Pairwise.nil) (fun e he => absurd he (List.not_mem_nil e))
    (fun e he => absurd he (List.not_mem_nil e))

/-- Witness for the amended invariant on a concrete sorted input. -/
theorem allocByLiveness_no_overlap_witness :
    List.Pairwise entryGoodPair
      (allocByLiveness [] [⟨1, 0, 2⟩, ⟨2, 1, 3⟩] [(1, 10), (2, 20)]).2 :=
  allocByLiveness_no_overlap_of_sorted [] [⟨1, 0, 2⟩, ⟨2, 1, 3⟩]
    [(1, 10), (2, 20)] (by decide) (lookup_pos_of_forall (by decide))

/-- Counterexample to the unrestricted no-overlap claim: on the interval
list exLives with size map exMap, one run of the allocator places value 5
at [20, 1020) and value 6 at [100, 105), although their live intervals
[0, 9] and [8, 31] intersect.  The early break of the conflict scan skipped
the region of value 5 because the region of value 2 had already ended
before the advanced candidate. -/
theorem allocByLiveness_overlap_counterexample :
    (¬ List.Pairwise entryGoodPair (allocByLiveness [] exLives exMap).2) ∧
      (allocByLiveness [] exLives exMap).2.map
          (fun e => (e.startAddr, e.size, e.liveIntrvl.value)) =
        [(0, 100, 1), (0, 10, 2), (10, 40, 3), (0, 20, 4), (20, 1000, 5),
         (100, 5, 6)] ∧
      LiveInterval.intersect ⟨5, 0, 9⟩ ⟨6, 8, 31⟩ = true ∧
      HasConflict 20 1000 100 5 = true := by
  decide

/-- Determinism and history independence of the allocator: the first thing
allocByLiveness does is clear any previously computed entries, so its
result does not depend on the allocation state left by earlier runs, and
two runs on the same inputs agree exactly. -/
theorem allocByLiveness_history_independent :
    ∀ (prior prior2 : List MemAllocEntry) (lives : List LiveInterval)
      (vmap : ValMemSizeMap),
      allocByLiveness prior lives vmap = allocByLiveness prior2 lives vmap :=
  fun _ _ _ _ => rfl

/-- Live intervals whose value is missing from the size map are skipped
silently: the step leaves the state unchanged, and when every interval is
unmapped the allocator returns peak 0 and no entries. -/
theorem alloc_skips_unmapped :
    (∀ (vmap : ValMemSizeMap) (acc : List MemAllocEntry × Nat)
        (li : LiveInterval),
        List.lookup li.value vmap = none → allocStep vmap acc li = acc) ∧
    (∀ (prior : List MemAllocEntry) (lives : List LiveInterval)
        (vmap : ValMemSizeMap),
        (∀ li ∈ lives, List.lookup li.value vmap = none) →
        allocByLiveness prior lives vmap = (0, [])) := by
  constructor
  · intro vmap acc li h
    unfold allocStep
    rw [h]
  · intro prior lives vmap hall
    simp only [allocByLiveness, clearAllocs]
    have hfold : lives.foldl (allocStep vmap) ([], 0) = ([], 0) := by
      induction lives with
      | nil => rfl
      | cons li rest ih =>
        rw [List.foldl_cons]
        have hstep : allocStep vmap ([], 0) li = ([], 0) := by
          unfold allocStep
          rw [hall li (List.mem_cons_self _ _)]
        rw [hstep]
        exact ih (fun x hx => hall x (List.mem_cons_of_mem _ hx))
    rw [hfold]

/-- Witness for the skipping behavior at a concrete input. -/
theorem alloc_skips_unmapped_witness :
    allocStep [] ([], 0) singleIntrvl = ([], 0) ∧
      allocByLiveness [] [singleIntrvl] [] = (0, []) :=
  ⟨alloc_skips_unmapped.1 [] ([], 0) singleIntrvl rfl,
   alloc_skips_unmapped.2 [] [singleIntrvl] [] (fun _ _ => rfl)⟩

/-- The running minSize accumulator of the allocation fold always equals
the maximum of startAddr + size over the accumulated entries. -/
theorem allocFold_peak (vmap : ValMemSizeMap) :
    ∀ (lives : List LiveInterval) (es : List MemAllocEntry) (m : Nat),
      m = (es.map (fun e => e.startAddr + e.size)).foldl Nat.max 0 →
      (lives.foldl (allocStep vmap) (es, m)).2 =
        ((lives.foldl (allocStep vmap) (es, m)).1.map
          (fun e => e.startAddr + e.size)).foldl Nat.max 0 := by
  intro lives
  induction lives with
  | nil => intro es m hm; exact hm
  | cons li rest ih =>
    intro es m hm
    rw [List.foldl_cons]
    cases hlk : List.lookup li.value vmap with
    | none =>
      have hstep : allocStep vmap (es, m) li = (es, m) := by
        unfold allocStep
        rw [hlk]
      rw [hstep]
      exact ih es m hm
    | some required =>
      have hstep : allocStep vmap (es, m) li =
          (es ++ [{ startAddr := scanConflicts required 0 (GetUsedMemRegions es li),
                    size := required, liveIntrvl := li }],
           Nat.max m (scanConflicts required 0 (GetUsedMemRegions es li) + required)) := by
        unfold allocStep
        rw [hlk]
      rw [hstep]
      apply ih
      rw [List.map_append, List.foldl_append]
      simp only [List.map_cons, List.map_nil, List.foldl_cons, List.foldl_nil]
      rw [hm]

/-- Peak correctness and the acceptance test: the peak returned by
allocByLiveness is the maximum of startAddr + size over the entries it
returns, and the planner accepts the placement of a sub-graph exactly when
this peak is strictly below the budget. -/
theorem allocPeak_eq_max_and_accept_iff :
    (∀ (prior : List MemAllocEntry) (lives : List LiveInterval)
        (vmap : ValMemSizeMap),
        (allocByLiveness prior lives vmap).1 =
          ((allocByLiveness prior lives vmap).2.map
            (fun e => e.startAddr + e.size)).foldl Nat.max 0) ∧
    (∀ (σ : Type) (M : SubGraphModel σ) (budget : Nat) (s : σ) (prev : Nat),
        plannerStep M budget s prev =
            StepResult.accepted s (plannerPeak M s) (plannerAlloc M s).2 ↔
          plannerPeak M s < budget) := by
  constructor
  · intro prior lives vmap
    simp only [allocByLiveness, clearAllocs]
    exact allocFold_peak vmap lives [] 0 rfl
  · intro σ M budget s prev
    constructor
    · intro heq
      by_contra hacc
      unfold plannerStep at heq
      rw [if_neg (by exact fun h => hacc h)] at heq
      by_cases hth : prev ≠ 0 ∧ 9 * prev < 10 * (plannerAlloc M s).1
      · rw [if_pos hth] at heq
        cases hsp : M.splitNewSubGraph (M.resetToOrigSize s) with
        | none => rw [hsp] at heq; cases heq
        | some val =>
          obtain ⟨o, n⟩ := val
          rw [hsp] at heq
          cases heq
      · rw [if_neg hth] at heq
        cases heq
    · intro hlt
      unfold plannerPeak at hlt
      unfold plannerStep plannerPeak
      rw [if_pos hlt]

/-- Missing backend information makes runOnModule fail immediately: the
status is kPassFailure, the previously held entry list is left untouched
(no allocation is performed), and the result does not depend on the
sub-graph services, the worklist seeds or the available fuel, because none
of them is consulted. -/
theorem runOnModule_no_backend_fails :
    ∀ (σ : Type) (M M2 : SubGraphModel σ) (seeds seeds2 : List σ)
      (prior : List MemAllocEntry) (fuel fuel2 : Nat),
      runOnModule none M seeds prior fuel =
          some (PassReturn.kPassFailure, prior) ∧
        runOnModule none M seeds prior fuel =
          runOnModule none M2 seeds2 prior fuel2 :=
  fun _ _ _ _ _ _ _ _ => ⟨rfl, rfl⟩

/-- A planner iteration with peak below budget accepts. -/
theorem plannerStep_accept {σ : Type} (M : SubGraphModel σ) (budget : Nat)
    (s : σ) (prev : Nat) (h : plannerPeak M s < budget) :
    plannerStep M budget s prev =
      StepResult.accepted s (plannerPeak M s) (plannerAlloc M s).2 := by
  unfold plannerPeak at h ⊢
  unfold plannerStep
  rw [if_pos h]

/-- A planner iteration over budget that does not hit the split threshold
shrinks the sub-graph and records the peak as the new previous size. -/
theorem plannerStep_shrink {σ : Type} (M : SubGraphModel σ) (budget : Nat)
    (s : σ) (prev : Nat) (h1 : ¬ plannerPeak M s < budget)
    (h2 : ¬ (prev ≠ 0 ∧ 9 * prev < 10 * plannerPeak M s)) :
    plannerStep M budget s prev =
      StepResult.shrunk (M.shrinkSize s) (plannerPeak M s) := by
  unfold plannerPeak at h1 h2 ⊢
  unfold plannerStep
  rw [if_neg h1, if_neg h2]

/-- A planner iteration over budget past the split threshold, whose split
request succeeds, signals a successful split. -/
theorem plannerStep_split_some {σ : Type} (M : SubGraphModel σ) (budget : Nat)
    (s : σ) (prev : Nat) {o n : σ} (h1 : ¬ plannerPeak M s < budget)
    (h2 : prev ≠ 0) (h3 : 9 * prev < 10 * plannerPeak M s)
    (hs : M.splitNewSubGraph (M.resetToOrigSize s) = some (o, n)) :
    plannerStep M budget s prev = StepResult.splitOk o n := by
  unfold plannerPeak at h1 h3
  unfold plannerStep
  rw [if_neg h1, if_pos ⟨h2, h3⟩, hs]

/-- A planner iteration over budget past the split threshold, whose split
request fails, abandons the sub-graph. -/
theorem plannerStep_split_none {σ : Type} (M : SubGraphModel σ) (budget : Nat)
    (s : σ) (prev : Nat) (h1 : ¬ plannerPeak M s < budget)
    (h2 : prev ≠ 0) (h3 : 9 * prev < 10 * plannerPeak M s)
    (hs : M.splitNewSubGraph (M.resetToOrigSize s) = none) :
    plannerStep M budget s prev =
      StepResult.abandoned (M.resetToOrigSize s) (plannerAlloc M s).2 := by
  unfold plannerPeak at h1 h3
  unfold plannerStep
  rw [if_neg h1, if_pos ⟨h2, h3⟩, hs]

/-- Split threshold of the planner (line 156): with a prior candidate and
the peak still at or above budget, the planner signals split-required
exactly when the new peak exceeds nine tenths of the prior candidate;
otherwise it records the peak as the new prior candidate and shrinks. -/
theorem plannerStep_threshold {σ : Type} (M : SubGraphModel σ) (budget : Nat)
    (s : σ) (prev : Nat) (h1 : budget ≤ plannerPeak M s) (h2 : prev ≠ 0) :
    (9 * prev < 10 * plannerPeak M s →
      isSplitSignal (plannerStep M budget s prev) = true) ∧
    (10 * plannerPeak M s ≤ 9 * prev →
      plannerStep M budget s prev =
        StepResult.shrunk (M.shrinkSize s) (plannerPeak M s)) := by
  have h1n : ¬ plannerPeak M s < budget := Nat.not_lt.mpr h1
  constructor
  · intro h3
    cases hs : M.splitNewSubGraph (M.resetToOrigSize s) with
    | none =>
      rw [plannerStep_split_none M budget s prev h1n h2 h3 hs]
      rfl
    | some val =>
      obtain ⟨o, n⟩ := val
      rw [plannerStep_split_some M budget s prev h1n h2 h3 hs]
      rfl
  · intro h3
    exact plannerStep_shrink M budget s prev h1n (fun hc => by omega)

/-- Witness for the split threshold at the figures named by the spec: with
prior candidate 1000 and a sub-graph state of peak 950 (ratio 0.95) the
planner signals split-required; with peak 850 (ratio 0.85) it shrinks and
records 850. -/
theorem plannerStep_threshold_witness :
    isSplitSignal (plannerStep peakModel 500 950 1000) = true ∧
      plannerStep peakModel 500 850 1000 =
        StepResult.shrunk (peakModel.shrinkSize 850) (plannerPeak peakModel 850) :=
  ⟨(plannerStep_threshold peakModel 500 950 1000 (by decide) (by decide)).1
      (by decide),
   (plannerStep_threshold peakModel 500 850 1000 (by decide) (by decide)).2
      (by decide)⟩

/-- Reset-before-split: whenever the planner decides a split is required,
the split request is issued on the sub-graph state already reset to its
original sizes (so a split candidate never inherits shrink decisions), and
on a successful split the loop continues with the returned original and
the prior-candidate state cleared back to 0, pushing the new sub-graph. -/
theorem split_resets_before_request {σ : Type} (M : SubGraphModel σ)
    (budget : Nat) (s : σ) (prev : Nat) (h1 : budget ≤ plannerPeak M s)
    (h2 : prev ≠ 0) (h3 : 9 * prev < 10 * plannerPeak M s) :
    (plannerStep M budget s prev =
      match M.splitNewSubGraph (M.resetToOrigSize s) with
      | some (o, n) => StepResult.splitOk o n
      | none =>
        StepResult.abandoned (M.resetToOrigSize s) (plannerAlloc M s).2) ∧
    (∀ (fuel : Nat) (pushed : List σ) (o n : σ),
      M.splitNewSubGraph (M.resetToOrigSize s) = some (o, n) →
      plannerRun M budget (fuel + 1) s prev pushed =
        plannerRun M budget fuel o 0 (n :: pushed)) := by
  have h1n : ¬ plannerPeak M s < budget := Nat.not_lt.mpr h1
  constructor
  · cases hs : M.splitNewSubGraph (M.resetToOrigSize s) with
    | none => exact plannerStep_split_none M budget s prev h1n h2 h3 hs
    | some val =>
      obtain ⟨o, n⟩ := val
      exact plannerStep_split_some M budget s prev h1n h2 h3 hs
  · intro fuel pushed o n hs
    have hstep := plannerStep_split_some M budget s prev h1n h2 h3 hs
    show (match plannerStep M budget s prev with
      | StepResult.accepted s2 pk es => some (PlanEnd.accepted s2 pk, pushed, es)
      | StepResult.shrunk s2 p2 => plannerRun M budget fuel s2 p2 pushed
      | StepResult.splitOk o2 n2 => plannerRun M budget fuel o2 0 (n2 :: pushed)
      | StepResult.abandoned s2 es => some (PlanEnd.abandoned s2, pushed, es)) =
      plannerRun M budget fuel o 0 (n :: pushed)
    rw [hstep]

/-- Witness for reset-before-split on the concrete model whose reset moves
every state to 1000: from state 3 the split is requested at the reset
state, and the loop continues with prevMinSize cleared to 0. -/
theorem split_resets_before_request_witness :
    plannerStep resetModel 5 3 6 = StepResult.splitOk 1000 1001 ∧
      plannerRun resetModel 5 1 3 6 [] = plannerRun resetModel 5 0 1000 0 [1001] := by
  have h := split_resets_before_request resetModel 5 3 6 (by decide) (by decide)
    (by decide)
  exact ⟨by rw [h.1]; rfl, h.2 0 [] 1000 1001 rfl⟩

/-- When the planner run for the popped sub-graph ends in abandonment, the
pass goes on processing the sub-graphs pushed by its splits followed by the
remaining worklist, and whatever that yields the overall status is the
non-failure kModuleNoChanged. -/
theorem abandoned_subgraph_continues {σ : Type} (M : SubGraphModel σ)
    (budget fuel : Nat) (s : σ) (rest : List σ) (prior : List MemAllocEntry)
    (s2 : σ) (pushed : List σ) (es2 : List MemAllocEntry)
    (h : plannerRun M budget (fuel + 1) s 0 [] =
      some (PlanEnd.abandoned s2, pushed, es2)) :
    runOnModule (some budget) M (s :: rest) prior (fuel + 1) =
      (runWorklist M budget fuel (pushed ++ rest) es2).map
        (fun entries => (PassReturn.kModuleNoChanged, entries)) := by
  show (runWorklist M budget (fuel + 1) (s :: rest) []).map
      (fun entries => (PassReturn.kModuleNoChanged, entries)) = _
  have hwl : runWorklist M budget (fuel + 1) (s :: rest) [] =
      runWorklist M budget fuel (pushed ++ rest) es2 := by
    show (match plannerRun M budget (fuel + 1) s 0 [] with
      | none => none
      | some (_, pushed2, entries2) =>
        runWorklist M budget fuel (pushed2 ++ rest) entries2) = _
    rw [h]
  rw [hwl]

/-- Witness for worklist continuation after abandonment: with budget 10 the
sub-graph of peak 20 is abandoned (it cannot shrink or split), and the pass
still places the remaining sub-graph of peak 5 and returns
kModuleNoChanged. -/
theorem abandoned_subgraph_continues_witness :
    runOnModule (some 10) peakModel [20, 5] [] 3 =
      some (PassReturn.kModuleNoChanged,
        [{ startAddr := 0, size := 5, liveIntrvl := singleIntrvl }]) :=
  (abandoned_subgraph_continues peakModel 10 2 20 [5] [] 20 []
      [{ startAddr := 0, size := 20, liveIntrvl := singleIntrvl }]
      (by decide)).trans (by decide)

/-- Termination of the planner loop.  The hypotheses formalize a
well-founded shrink and split policy: every allocation attempt has a
positive peak (sizes cannot shrink below a positive floor), shrinking and
resetting do not change the structural measure of a sub-graph (they only
touch sizes), and every successful split strictly decreases it (so splits
eventually become impossible).  Under these assumptions the shrink and
allocate loop reaches acceptance or abandonment in finitely many
iterations: some finite fuel makes the runner return a terminal state. -/
theorem planner_loop_terminates {σ : Type} (M : SubGraphModel σ) (budget : Nat)
    (bnd : σ → Nat)
    (Hpk : ∀ s, 0 < plannerPeak M s)
    (Hsh : ∀ s, bnd (M.shrinkSize s) = bnd s)
    (Hrs : ∀ s, bnd (M.resetToOrigSize s) = bnd s)
    (Hsp : ∀ s o n, M.splitNewSubGraph s = some (o, n) → bnd o < bnd s) :
    ∀ (s : σ) (prev : Nat) (pushed : List σ),
      ∃ fuel, (plannerRun M budget fuel s prev pushed).isSome = true := by
  have hrun : ∀ (fuel : Nat) (s : σ) (prev : Nat) (pushed : List σ),
      plannerRun M budget (fuel + 1) s prev pushed =
        match plannerStep M budget s prev with
        | StepResult.accepted s2 pk es => some (PlanEnd.accepted s2 pk, pushed, es)
        | StepResult.shrunk s2 p2 => plannerRun M budget fuel s2 p2 pushed
        | StepResult.splitOk o n => plannerRun M budget fuel o 0 (n :: pushed)
        | StepResult.abandoned s2 es => some (PlanEnd.abandoned s2, pushed, es) :=
    fun _ _ _ _ => rfl
  suffices H : ∀ (b : Nat) (s : σ), bnd s = b → ∀ (prev : Nat) (pushed : List σ),
      ∃ fuel, (plannerRun M budget fuel s prev pushed).isSome = true by
    intro s prev pushed
    exact H (bnd s) s rfl prev pushed
  intro b
  induction b using Nat.strong_induction_on with
  | _ b IHb =>
    -- inner loop: with a nonzero prior candidate the recorded peak strictly
    -- decreases on every shrink, so induction on the candidate applies
    have chain : ∀ (p : Nat) (s : σ), bnd s = b → 0 < p → ∀ (pushed : List σ),
        ∃ fuel, (plannerRun M budget fuel s p pushed).isSome = true := by
      intro p
      induction p using Nat.strong_induction_on with
      | _ p IHp =>
        intro s hb hp pushed
        by_cases hacc : plannerPeak M s < budget
        · refine ⟨1, ?_⟩
          rw [hrun 0 s p pushed, plannerStep_accept M budget s p hacc]
          rfl
        · by_cases hth : 9 * p < 10 * plannerPeak M s
          · cases hs : M.splitNewSubGraph (M.resetToOrigSize s) with
            | none =>
              refine ⟨1, ?_⟩
              rw [hrun 0 s p pushed, plannerStep_split_none M budget s p hacc
                (Nat.pos_iff_ne_zero.mp hp) hth hs]
              rfl
            | some val =>
              obtain ⟨o, n⟩ := val
              have hbo : bnd o < b := by
                have h2 := Hsp (M.resetToOrigSize s) o n hs
                rw [Hrs s] at h2
                omega
              obtain ⟨f, hf⟩ := IHb (bnd o) hbo o rfl 0 (n :: pushed)
              refine ⟨f + 1, ?_⟩
              rw [hrun f s p pushed, plannerStep_split_some M budget s p hacc
                (Nat.pos_iff_ne_zero.mp hp) hth hs]
              exact hf
          · have hple : plannerPeak M s < p := by omega
            obtain ⟨f, hf⟩ := IHp (plannerPeak M s) hple (M.shrinkSize s)
              (by rw [Hsh s]; exact hb) (Hpk s) pushed
            refine ⟨f + 1, ?_⟩
            rw [hrun f s p pushed,
              plannerStep_shrink M budget s p hacc (fun hc => by omega)]
            exact hf
    intro s hb prev pushed
    cases prev with
    | succ p => exact chain (p + 1) s hb (Nat.succ_pos p) pushed
    | zero =>
      by_cases hacc : plannerPeak M s < budget
      · refine ⟨1, ?_⟩
        rw [hrun 0 s 0 pushed, plannerStep_accept M budget s 0 hacc]
        rfl
      · obtain ⟨f, hf⟩ := chain (plannerPeak M s) (M.shrinkSize s)
          (by rw [Hsh s]; exact hb) (Hpk s) pushed
        refine ⟨f + 1, ?_⟩
        rw [hrun f s 0 pushed,
          plannerStep_shrink M budget s 0 hacc (fun hc => hc.1 rfl)]
        exact hf

/-- Witness for planner termination on the concrete un-splittable model of
constant peak 1 with budget 0: the loop ends (in abandonment) within finite
fuel. -/
theorem planner_loop_terminates_witness :
    ∃ fuel, (plannerRun c9Model 0 fuel 0 0 []).isSome = true :=
  planner_loop_terminates c9Model 0 (fun _ => 0)
    (fun _ => Nat.zero_lt_one)
    (fun _ => rfl)
    (fun _ => rfl)
    (fun _ _ _ h => Option.noConfusion h)
    0 0 []
